import Mathlib

/-!
Shallow embedding of the password-strength analysis engine
(class PasswordAnalyzer of the repository's single script file).
Passwords are modelled as `List Char`; the JavaScript floating-point
arithmetic is modelled over `ℝ`.
-/

open Real

/-- JS `\w` character class `[A-Za-z0-9_]`, used by the `\b` word-boundary assertion. -/
def isWordChar (c : Char) : Bool :=
  ('a' ≤ c && c ≤ 'z') || ('A' ≤ c && c ≤ 'Z') || ('0' ≤ c && c ≤ '9') || c == '_'

/-- Presence test for `/[a-z]/.test(password)`. -/
def hasLower (p : List Char) : Bool := p.any fun c => 'a' ≤ c && c ≤ 'z'

/-- Presence test for `/[A-Z]/.test(password)`. -/
def hasUpper (p : List Char) : Bool := p.any fun c => 'A' ≤ c && c ≤ 'Z'

/-- Presence test for `/[0-9]/.test(password)`. -/
def hasDigit (p : List Char) : Bool := p.any fun c => '0' ≤ c && c ≤ '9'

/-- Presence test for `/[^a-zA-Z0-9]/.test(password)`. -/
def hasSpecial (p : List Char) : Bool :=
  p.any fun c => !(('a' ≤ c && c ≤ 'z') || ('A' ≤ c && c ≤ 'Z') || ('0' ≤ c && c ≤ '9'))

/-- The charset accumulation of `calculateEntropy`:
`if /[a-z]/ charset += 26; if /[A-Z]/ += 26; if /[0-9]/ += 10; if /[^a-zA-Z0-9]/ += 32`. -/
def charsetSize (p : List Char) : ℕ :=
  (if hasLower p then 26 else 0) + (if hasUpper p then 26 else 0) +
    (if hasDigit p then 10 else 0) + (if hasSpecial p then 32 else 0)

/-- Model of `calculateShannonEntropy`: character frequencies over the password, then
`entropy = -Σ p(c)·log2(p(c))` over the distinct characters, returned as `entropy * length`. -/
noncomputable def calculateShannonEntropy (p : List Char) : ℝ :=
  (-(p.dedup.map fun c =>
      ((p.count c : ℝ) / p.length) * logb 2 ((p.count c : ℝ) / p.length)).sum) * p.length

/-- Model of `calculateUniqueness`: `(new Set(password).size / password.length) * 100`.
Real-valued model (the JS value for a non-empty password). -/
noncomputable def calculateUniqueness (p : List Char) : ℝ :=
  ((p.dedup.length : ℝ) / p.length) * 100

/-- Variant of `calculateUniqueness` with the JS float semantics of the degenerate case made explicit:
on the empty password the JS code computes `0 / 0 = NaN`, modelled as `none`. -/
noncomputable def calculateUniquenessJS (p : List Char) : Option ℝ :=
  if p.length = 0 then none else some (calculateUniqueness p)

/-- The `{ shannon, nist, charset, uniqueness }` object built by `calculateEntropy`. -/
structure EntropyMetrics where
  shannon : ℝ
  nist : ℝ
  charset : ℕ
  uniqueness : ℝ

/-- Model of `calculateEntropy`: presence-based charset size, `nist = log2(charset ^ length)`,
Shannon entropy and uniqueness. -/
noncomputable def calculateEntropy (p : List Char) : EntropyMetrics :=
  { shannon := calculateShannonEntropy p
    nist := logb 2 ((charsetSize p : ℝ) ^ p.length)
    charset := charsetSize p
    uniqueness := calculateUniqueness p }

/-- Character access used by the scanning model of the regex detectors. -/
def wordCharAt (s : List Char) (i : Nat) : Bool :=
  match s[i]? with
  | some c => isWordChar c
  | none => false

/-- The `\b` assertion of JS regexes at position `i` of `s` (between `s[i-1]` and `s[i]`):
exactly one side is a word character. -/
def boundaryAt (s : List Char) (i : Nat) : Bool :=
  ((i != 0) && wordCharAt s (i - 1)) != wordCharAt s i

/-- Literal-string match of `w` starting at position `i` of `s`. -/
def matchAt (s : List Char) (i : Nat) : List Char → Bool
  | [] => true
  | c :: w => (s[i]? == some c) && matchAt s (i + 1) w

/-- Digit class `\d` at position `i`. -/
def digitAt (s : List Char) (i : Nat) : Bool :=
  match s[i]? with
  | some c => c.isDigit
  | none => false

/-- The separator class `[\/\-]` of the date regex at position `i`. -/
def sepAt (s : List Char) (i : Nat) : Bool :=
  match s[i]? with
  | some c => c == '/' || c == '-'
  | none => false

/-- The strings matched by the first field `(0?[1-9]|1[0-2])` of the date regex. -/
def monthStrs : List (List Char) :=
  [ ['1'], ['2'], ['3'], ['4'], ['5'], ['6'], ['7'], ['8'], ['9'],
    ['0', '1'], ['0', '2'], ['0', '3'], ['0', '4'], ['0', '5'],
    ['0', '6'], ['0', '7'], ['0', '8'], ['0', '9'],
    ['1', '0'], ['1', '1'], ['1', '2'] ]

/-- The strings matched by the second field `(0?[1-9]|[12]\d|3[01])` of the date regex. -/
def dayStrs : List (List Char) :=
  [ ['1'], ['2'], ['3'], ['4'], ['5'], ['6'], ['7'], ['8'], ['9'],
    ['0', '1'], ['0', '2'], ['0', '3'], ['0', '4'], ['0', '5'],
    ['0', '6'], ['0', '7'], ['0', '8'], ['0', '9'],
    ['1', '0'], ['1', '1'], ['1', '2'], ['1', '3'], ['1', '4'],
    ['1', '5'], ['1', '6'], ['1', '7'], ['1', '8'], ['1', '9'],
    ['2', '0'], ['2', '1'], ['2', '2'], ['2', '3'], ['2', '4'],
    ['2', '5'], ['2', '6'], ['2', '7'], ['2', '8'], ['2', '9'],
    ['3', '0'], ['3', '1'] ]

/-- The trailing `(\d{2}|\d{4})\b` of the date regex starting at position `i`. -/
def yearTailAt (s : List Char) (i : Nat) : Bool :=
  (digitAt s i && digitAt s (i + 1) && boundaryAt s (i + 2)) ||
  (digitAt s i && digitAt s (i + 1) && digitAt s (i + 2) && digitAt s (i + 3) &&
    boundaryAt s (i + 4))

/-- The first alternative `\b(19|20)\d{2}\b` of the date regex, anchored at position `i`. -/
def yearAt (s : List Char) (i : Nat) : Bool :=
  boundaryAt s i && (matchAt s i ['1', '9'] || matchAt s i ['2', '0']) &&
  digitAt s (i + 2) && digitAt s (i + 3) && boundaryAt s (i + 4)

/-- The second alternative `\b(0?[1-9]|1[0-2])[\/\-](0?[1-9]|[12]\d|3[01])[\/\-](\d{2}|\d{4})\b`
of the date regex, anchored at position `i`. -/
def mdyAt (s : List Char) (i : Nat) : Bool :=
  boundaryAt s i &&
  monthStrs.any fun m =>
    matchAt s i m && sepAt s (i + m.length) &&
    dayStrs.any fun d =>
      matchAt s (i + m.length + 1) d && sepAt s (i + m.length + 1 + d.length) &&
      yearTailAt s (i + m.length + d.length + 2)

/-- Model of `commonPatterns.date.test(password)`: some position of the password starts a match
of one of the two alternatives of the date regex. -/
def dateTest (s : List Char) : Bool :=
  (List.range (s.length + 1)).any fun i => yearAt s i || mdyAt s i

/-- Lowercasing used to model the `/i` regex flags and `password.toLowerCase()`. -/
def lowerList (s : List Char) : List Char := s.map Char.toLower

/-- Substring search: `w` occurs in `s` starting at some position. -/
def containsSub (s w : List Char) : Bool :=
  (List.range (s.length + 1)).any fun i => matchAt s i w

/-- Model of `commonPatterns.keyboard.test(password)`: `/qwerty|asdf|zxcv|1234|abcd/i`. -/
def keyboardTest (s : List Char) : Bool :=
  [ "qwerty".toList, "asdf".toList, "zxcv".toList, "1234".toList, "abcd".toList ].any
    fun w => containsSub (lowerList s) w

/-- Model of `commonPatterns.repeated.test(password)`: `/(.)\1{2,}/`, i.e. some character
occurs at least three times consecutively. -/
def repeatedTest : List Char → Bool
  | a :: b :: c :: rest => (a == b && b == c) || repeatedTest (b :: c :: rest)
  | _ => false

/-- The three-character runs of the sequential regex
`(abc|bcd|...|xyz|012|123|...|789)`. -/
def seqRuns : List (List Char) :=
  ((List.range 24).map fun k => [Char.ofNat (97 + k), Char.ofNat (98 + k), Char.ofNat (99 + k)]) ++
    ((List.range 8).map fun k => [Nat.digitChar k, Nat.digitChar (k + 1), Nat.digitChar (k + 2)])

/-- Model of `commonPatterns.sequential.test(password)` (case-insensitive). -/
def sequentialTest (s : List Char) : Bool :=
  seqRuns.any fun w => containsSub (lowerList s) w

/-- Model of `commonPatterns.leet.test(password)`: `/[4@][5$][7!][3e][0o]/i`. -/
def leetTest (s : List Char) : Bool :=
  let l := lowerList s
  (List.range l.length).any fun i =>
    (match l[i]? with | some c => c == '4' || c == '@' | none => false) &&
    (match l[i + 1]? with | some c => c == '5' || c == '$' | none => false) &&
    (match l[i + 2]? with | some c => c == '7' || c == '!' | none => false) &&
    (match l[i + 3]? with | some c => c == '3' || c == 'e' | none => false) &&
    (match l[i + 4]? with | some c => c == '0' || c == 'o' | none => false)

/-- The static `commonPasswords` set of the constructor. -/
def commonPasswords : List (List Char) :=
  [ "password".toList, "123456".toList, "123456789".toList, "qwerty".toList,
    "abc123".toList, "password123".toList, "admin".toList, "letmein".toList,
    "welcome".toList, "monkey".toList, "1234567890".toList, "dragon".toList ]

/-- Model of `this.commonPasswords.has(password.toLowerCase())`. -/
def dictionaryTest (s : List Char) : Bool :=
  commonPasswords.contains (lowerList s)

/-- Whole word `w` (with `\b` on both sides) starting at position `i` of `s`. -/
def wordBoundedAt (s : List Char) (i : Nat) (w : List Char) : Bool :=
  boundaryAt s i && matchAt s i w && boundaryAt s (i + w.length)

/-- The bare-four-digit-number regex `\b\d{4}\b` of `detectPersonalInfo`, at position `i`. -/
def fourDigitAt (s : List Char) (i : Nat) : Bool :=
  boundaryAt s i && digitAt s i && digitAt s (i + 1) && digitAt s (i + 2) &&
    digitAt s (i + 3) && boundaryAt s (i + 4)

/-- The name and account words of the two `\b(...)\b/i` alternations of `detectPersonalInfo`. -/
def personalWords : List (List Char) :=
  [ "john".toList, "jane".toList, "mike".toList, "sarah".toList, "david".toList,
    "mary".toList, "james".toList, "lisa".toList,
    "admin".toList, "user".toList, "test".toList, "demo".toList ]

/-- Model of `detectPersonalInfo`: one of the three personal regexes matches somewhere. -/
def detectPersonalInfo (s : List Char) : Bool :=
  (List.range (s.length + 1)).any fun i =>
    (personalWords.any fun w => wordBoundedAt (lowerList s) i w) || fourDigitAt s i

/-- The seven boolean flags built by `detectPatterns`. -/
structure PatternFlags where
  keyboard : Bool
  repeated : Bool
  sequential : Bool
  date : Bool
  leet : Bool
  dictionary : Bool
  personal : Bool

/-- Model of `detectPatterns`: the seven independent detectors. -/
def detectPatterns (p : List Char) : PatternFlags :=
  { keyboard := keyboardTest p
    repeated := repeatedTest p
    sequential := sequentialTest p
    date := dateTest p
    leet := leetTest p
    dictionary := dictionaryTest p
    personal := detectPersonalInfo p }

/-- Model of `patterns.count = Object.values(patterns).filter(Boolean).length`: the number
of true flags among the seven detectors. -/
def patternCount (f : PatternFlags) : ℕ :=
  ([ f.keyboard, f.repeated, f.sequential, f.date, f.leet, f.dictionary,
     f.personal ].filter fun b => b).length

/-- The five strength levels of `getStrengthLevel`. -/
inductive Level where
  | VeryWeak
  | Weak
  | Moderate
  | Strong
  | VeryStrong
  deriving DecidableEq

/-- Model of `getStrengthLevel`: inclusive lower bounds 0.8 / 0.6 / 0.4 / 0.2. -/
noncomputable def getStrengthLevel (score : ℝ) : Level :=
  if 0.8 ≤ score then Level.VeryStrong
  else if 0.6 ≤ score then Level.Strong
  else if 0.4 ≤ score then Level.Moderate
  else if 0.2 ≤ score then Level.Weak
  else Level.VeryWeak

/-- Model of `getStrengthColor`: the fixed level-to-color table. -/
def getStrengthColor : Level → String
  | Level.VeryStrong => "#2ed573"
  | Level.Strong => "#5352ed"
  | Level.Moderate => "#f1c40f"
  | Level.Weak => "#ffa502"
  | Level.VeryWeak => "#ff4757"

/-- The `{ score, level, color }` object returned by `calculateStrength`. -/
structure StrengthResult where
  score : ℝ
  level : Level
  color : String

/-- Model of `calculateStrength`: the additive weighted score accumulated exactly as in the
source (`score += ...` six times), then the pattern penalty with `Math.max(0, ...)`, then the
`* 0.3` dictionary penalty, then level and color. -/
noncomputable def calculateStrength (p : List Char) (e : EntropyMetrics) (f : PatternFlags) :
    StrengthResult :=
  let s1 := 0 + min ((p.length : ℝ) / 20) 1 * 0.25
  let s2 := s1 + min (e.shannon / 50) 1 * 0.30
  let s3 := s2 + (e.charset : ℝ) / 94 * 0.15
  let s4 := s3 + e.uniqueness / 100 * 0.10
  let s5 := s4 + min (e.nist / 60) 1 * 0.10
  let s6 := s5 + 0.10
  let s7 := max 0 (s6 - (patternCount f : ℝ) * 0.08)
  let s8 := if f.dictionary then s7 * 0.3 else s7
  { score := s8, level := getStrengthLevel s8, color := getStrengthColor (getStrengthLevel s8) }

/-- Model of `formatTime`: seconds to a human-readable duration string, with
`Math.round` at each unit. -/
noncomputable def formatTime (s : ℝ) : String :=
  if s < 1 then "Instant"
  else if s < 60 then toString (round s) ++ " seconds"
  else if s < 3600 then toString (round (s / 60)) ++ " minutes"
  else if s < 86400 then toString (round (s / 3600)) ++ " hours"
  else if s < 31536000 then toString (round (s / 86400)) ++ " days"
  else toString (round (s / 31536000)) ++ " years"

/-- The `{ online, offline_cpu, offline_gpu }` object returned by `estimateCrackTimes`. -/
structure CrackTimes where
  online : String
  offline_cpu : String
  offline_gpu : String

/-- Model of `estimateCrackTimes`: `guesses = 2 ^ (entropy.shannon / 2)`, divided by the
three throughputs 1e3 / 1e6 / 1e9 guesses per second. -/
noncomputable def estimateCrackTimes (e : EntropyMetrics) : CrackTimes :=
  let guesses := (2 : ℝ) ^ (e.shannon / 2)
  { online := formatTime (guesses / 1000)
    offline_cpu := formatTime (guesses / 1000000)
    offline_gpu := formatTime (guesses / 1000000000) }

/-- Model of `generateRecommendations`: pushes advice strings in source order, with the
"excellent" fallback when nothing was pushed. The `strength` argument of the source is
accepted and ignored, as in the source body. -/
def generateRecommendations (p : List Char) (f : PatternFlags) (_st : StrengthResult) :
    List String :=
  let r1 : List String := if p.length < 12 then [ "Increase password length to at least 12 characters" ] else []
  let r2 := r1 ++ (if !hasLower p then [ "Add lowercase letters" ] else [])
  let r3 := r2 ++ (if !hasUpper p then [ "Add uppercase letters" ] else [])
  let r4 := r3 ++ (if !hasDigit p then [ "Add numbers" ] else [])
  let r5 := r4 ++ (if !hasSpecial p then [ "Add special characters (!@#$%^&*)" ] else [])
  let r6 := r5 ++ (if f.repeated then [ "Avoid repeated characters" ] else [])
  let r7 := r6 ++ (if f.sequential then [ "Avoid sequential patterns" ] else [])
  let r8 := r7 ++ (if f.keyboard then [ "Avoid keyboard patterns" ] else [])
  let r9 := r8 ++ (if f.dictionary then [ "Avoid common dictionary words" ] else [])
  let r10 := r9 ++ (if f.date then [ "Avoid dates and years" ] else [])
  if r10.length = 0 then [ "Excellent password! Consider using a password manager" ] else r10

/-- Issue severities of `identifySecurityIssues`. -/
inductive Severity where
  | low
  | medium
  | high
  deriving DecidableEq

/-- A `{ severity, message }` entry of the security-issue list. -/
structure SecurityIssue where
  severity : Severity
  message : String

/-- Model of `identifySecurityIssues`: severity-tagged issues pushed in source order. -/
def identifySecurityIssues (p : List Char) (f : PatternFlags) : List SecurityIssue :=
  (if f.dictionary then [ ⟨Severity.high, "Password found in common password lists"⟩ ] else []) ++
  (if p.length < 8 then [ ⟨Severity.high, "Password is too short (less than 8 characters)"⟩ ] else []) ++
  (if f.repeated then [ ⟨Severity.medium, "Contains repeated character sequences"⟩ ] else []) ++
  (if f.keyboard then [ ⟨Severity.medium, "Contains keyboard patterns"⟩ ] else []) ++
  (if f.personal then [ ⟨Severity.medium, "May contain personal information"⟩ ] else []) ++
  (if !hasSpecial p then [ ⟨Severity.low, "No special characters used"⟩ ] else [])

/-- The AnalysisReport object returned by `performAnalysis`. -/
structure AnalysisReport where
  entropy : EntropyMetrics
  patterns : PatternFlags
  strength : StrengthResult
  crackTimes : CrackTimes
  recommendations : List String
  securityIssues : List SecurityIssue
  score : ℤ

/-- Model of `performAnalysis`: the full pipeline, with the displayed score
`Math.round(strength.score * 100)`. -/
noncomputable def performAnalysis (p : List Char) : AnalysisReport :=
  let entropy := calculateEntropy p
  let patterns := detectPatterns p
  let strength := calculateStrength p entropy patterns
  { entropy := entropy
    patterns := patterns
    strength := strength
    crackTimes := estimateCrackTimes entropy
    recommendations := generateRecommendations p patterns strength
    securityIssues := identifySecurityIssues p patterns
    score := round (strength.score * 100) }

/-- The error kind of the spec's `analyze` contract for empty input. -/
inductive InvalidInputError where
  | emptyInput
  deriving DecidableEq

/-- The `analyze` entry point: the guard `if (!password) ...` of `analyzePassword` rejects
the empty password before `performAnalysis` runs. -/
noncomputable def analyze (p : List Char) : Except InvalidInputError AnalysisReport :=
  if p = [] then Except.error InvalidInputError.emptyInput
  else Except.ok (performAnalysis p)

/-- Spec-side formula (section 4.3 of the specification): the subtotal `S` of the six
additive terms of the strength score. -/
noncomputable def specSubtotal (p : List Char) : ℝ :=
  min ((p.length : ℝ) / 20) 1 * 0.25 +
    min ((calculateEntropy p).shannon / 50) 1 * 0.30 +
    ((calculateEntropy p).charset : ℝ) / 94 * 0.15 +
    (calculateEntropy p).uniqueness / 100 * 0.10 +
    min ((calculateEntropy p).nist / 60) 1 * 0.10 + 0.10

/-- Spec-side formula: `S' = max(0, S - count*0.08)`, then `finalScore = S' * 0.3` when the
dictionary flag is set, else `S'`. -/
noncomputable def specFinalScore (p : List Char) : ℝ :=
  let s := max 0 (specSubtotal p - (patternCount (detectPatterns p) : ℝ) * 0.08)
  if (detectPatterns p).dictionary then s * 0.3 else s

/-- Decimal value of a digit string. -/
def strVal (w : List Char) : ℕ := w.foldl (fun a c => a * 10 + (c.toNat - 48)) 0

/-- The decimal digit value of the character at position `i` (0 when out of range). -/
def digitValAt (s : List Char) (i : Nat) : ℕ :=
  match s[i]? with
  | some c => c.toNat - 48
  | none => 0

/-- Numeric value of the `len` digits starting at position `i`. -/
def tokenVal (s : List Char) (i : Nat) : Nat → ℕ
  | 0 => 0
  | n + 1 => tokenVal s i n * 10 + digitValAt s (i + n)

/-- A run of `len` digit characters starting at position `i`. -/
def numTokenAt (s : List Char) (i len : Nat) : Prop :=
  ∀ j, j < len → digitAt s (i + j) = true

instance (s : List Char) (i len : Nat) : Decidable (numTokenAt s i len) := by
  unfold numTokenAt; infer_instance

/-- Spec-side reading of the year alternative: the password contains a standalone
(word-bounded) four-digit number whose value lies in 1900..2099. -/
def specYearWord (s : List Char) : Prop :=
  ∃ i, boundaryAt s i = true ∧ numTokenAt s i 4 ∧
    1900 ≤ tokenVal s i 4 ∧ tokenVal s i 4 ≤ 2099 ∧ boundaryAt s (i + 4) = true

/-- Spec-side reading of a slash- or dash-separated numeric date in month/day/year order:
a word-bounded `M sep D sep Y` with `M` a one- or two-digit number in 1..12, `D` a one- or
two-digit number in 1..31, and `Y` a two- or four-digit number. -/
def specMDY (s : List Char) : Prop :=
  ∃ i mL dL yL, (mL = 1 ∨ mL = 2) ∧ (dL = 1 ∨ dL = 2) ∧ (yL = 2 ∨ yL = 4) ∧
    boundaryAt s i = true ∧
    numTokenAt s i mL ∧ 1 ≤ tokenVal s i mL ∧ tokenVal s i mL ≤ 12 ∧
    sepAt s (i + mL) = true ∧
    numTokenAt s (i + mL + 1) dL ∧ 1 ≤ tokenVal s (i + mL + 1) dL ∧
    tokenVal s (i + mL + 1) dL ≤ 31 ∧
    sepAt s (i + mL + 1 + dL) = true ∧
    numTokenAt s (i + mL + dL + 2) yL ∧
    boundaryAt s (i + mL + dL + 2 + yL) = true

/-- Claim-side reading of the date pattern as written (day/month/year order): a
word-bounded `D sep M sep Y` with `D` a one- or two-digit number in 1..31, `M` a one- or
two-digit number in 1..12, and `Y` a two- or four-digit number. -/
def specDMY (s : List Char) : Prop :=
  ∃ i dL mL yL, (dL = 1 ∨ dL = 2) ∧ (mL = 1 ∨ mL = 2) ∧ (yL = 2 ∨ yL = 4) ∧
    boundaryAt s i = true ∧
    numTokenAt s i dL ∧ 1 ≤ tokenVal s i dL ∧ tokenVal s i dL ≤ 31 ∧
    sepAt s (i + dL) = true ∧
    numTokenAt s (i + dL + 1) mL ∧ 1 ≤ tokenVal s (i + dL + 1) mL ∧
    tokenVal s (i + dL + 1) mL ≤ 12 ∧
    sepAt s (i + dL + 1 + mL) = true ∧
    numTokenAt s (i + dL + mL + 2) yL ∧
    boundaryAt s (i + dL + mL + 2 + yL) = true

/-- Spec-side rule table for the amended recommendation claim: the conditions in the
order the source evaluates them, paired with their advice strings. -/
def specRecRules (p : List Char) (f : PatternFlags) : List (Bool × String) :=
  [ (decide (p.length < 12), "Increase password length to at least 12 characters"),
    (!hasLower p, "Add lowercase letters"),
    (!hasUpper p, "Add uppercase letters"),
    (!hasDigit p, "Add numbers"),
    (!hasSpecial p, "Add special characters (!@#$%^&*)"),
    (f.repeated, "Avoid repeated characters"),
    (f.sequential, "Avoid sequential patterns"),
    (f.keyboard, "Avoid keyboard patterns"),
    (f.dictionary, "Avoid common dictionary words"),
    (f.date, "Avoid dates and years") ]

/-- Spec-side recommendation list for the amended claim: the advice of every triggered
rule, in table order, with the single fallback message when no rule triggered. -/
def specRecs (p : List Char) (f : PatternFlags) : List String :=
  let l := (specRecRules p f).filterMap fun r => if r.1 then some r.2 else none
  if l = [] then [ "Excellent password! Consider using a password manager" ] else l

/-- Claim-side count of base (length and character-class) advices, used to state the
original recommendation claim's length prediction. -/
def claimBaseAdviceCount (p : List Char) : ℕ :=
  (if p.length < 12 then 1 else 0) + (if !hasLower p then 1 else 0) +
    (if !hasUpper p then 1 else 0) + (if !hasDigit p then 1 else 0) +
    (if !hasSpecial p then 1 else 0)

/-!
Helper lemmas.
-/

theorem filterMap_rule_cons (b : Bool) (msg : String) (rest : List (Bool × String)) :
    (((b, msg) :: rest).filterMap fun r => if r.1 then some r.2 else none) =
      (if b then [msg] else []) ++ rest.filterMap (fun r => if r.1 then some r.2 else none) := by
  cases b <;> simp [List.filterMap_cons]

theorem exists_class (p : List Char) (h : p ≠ []) :
    hasLower p = true ∨ hasUpper p = true ∨ hasDigit p = true ∨ hasSpecial p = true := by
  match p, h with
  | c :: t, _ =>
    by_cases h1 : ('a' ≤ c && c ≤ 'z') = true
    · exact Or.inl (by simp [hasLower, List.any_cons, h1])
    · by_cases h2 : ('A' ≤ c && c ≤ 'Z') = true
      · exact Or.inr (Or.inl (by simp [hasUpper, List.any_cons, h2]))
      · by_cases h3 : ('0' ≤ c && c ≤ '9') = true
        · exact Or.inr (Or.inr (Or.inl (by simp [hasDigit, List.any_cons, h3])))
        · refine Or.inr (Or.inr (Or.inr ?_))
          simp only [hasSpecial, List.any_cons, Bool.or_eq_true]
          left
          simp only [Bool.not_eq_true] at h1 h2 h3
          simp [h1, h2, h3]

theorem charsetSize_le (p : List Char) : charsetSize p ≤ 94 := by
  unfold charsetSize
  split_ifs <;> norm_num

theorem le_charsetSize (p : List Char) (h : p ≠ []) : 10 ≤ charsetSize p := by
  have hc := exists_class p h
  unfold charsetSize
  rcases hc with hc | hc | hc | hc <;> simp [hc] <;> split_ifs <;> omega

theorem uniqueness_le (p : List Char) (h : p ≠ []) : calculateUniqueness p ≤ 100 := by
  unfold calculateUniqueness
  have hlen : 0 < p.length := List.length_pos.mpr h
  have hlenR : (0 : ℝ) < (p.length : ℝ) := by exact_mod_cast hlen
  have hd : p.dedup.length ≤ p.length := (List.dedup_sublist p).length_le
  have hdiv : ((p.dedup.length : ℝ) / (p.length : ℝ)) ≤ 1 :=
    (div_le_one hlenR).mpr (by exact_mod_cast hd)
  nlinarith

theorem dedup_map_sum_eq (p : List Char) (f : Char → ℝ) :
    (p.dedup.map f).sum = ∑ c ∈ p.toFinset, f c := by
  have hnd := p.nodup_dedup
  have hfs : p.dedup.toFinset = p.toFinset := by
    ext x
    simp [List.mem_dedup]
  rw [← hfs, List.sum_toFinset f hnd]

theorem shannon_closed (p : List Char) (h : p ≠ []) :
    calculateShannonEntropy p =
      (p.length : ℝ) * logb 2 (p.length : ℝ) -
        ∑ c ∈ p.toFinset, (p.count c : ℝ) * logb 2 (p.count c : ℝ) := by
  have hn : (p.length : ℝ) ≠ 0 := by
    have : 0 < p.length := List.length_pos.mpr h
    positivity
  unfold calculateShannonEntropy
  rw [dedup_map_sum_eq]
  rw [neg_mul, Finset.sum_mul]
  have step : ∀ c ∈ p.toFinset,
      ((p.count c : ℝ) / (p.length : ℝ)) * logb 2 ((p.count c : ℝ) / (p.length : ℝ)) *
          (p.length : ℝ) =
        (p.count c : ℝ) * logb 2 (p.count c : ℝ) -
          (p.count c : ℝ) * logb 2 (p.length : ℝ) := by
    intro c hcmem
    have hcount : 0 < p.count c := List.count_pos_iff.mpr (List.mem_toFinset.mp hcmem)
    have hk : ((p.count c : ℝ)) ≠ 0 := by positivity
    rw [logb_div hk hn]
    field_simp
    ring
  rw [Finset.sum_congr rfl step, Finset.sum_sub_distrib, ← Finset.sum_mul]
  have hcnt : (∑ c ∈ p.toFinset, (p.count c : ℝ)) = (p.length : ℝ) := by
    have := List.sum_toFinset_count_eq_length p
    exact_mod_cast this
  rw [hcnt]
  ring

theorem shannon_snoc (p : List Char) (c : Char) (hc : c ∉ p) :
    calculateShannonEntropy (p ++ [c]) =
      ((p.length : ℝ) + 1) * logb 2 ((p.length : ℝ) + 1) -
        ∑ x ∈ p.toFinset, (p.count x : ℝ) * logb 2 (p.count x : ℝ) := by
  rw [shannon_closed (p ++ [c]) (by simp)]
  have hlen : ((p ++ [c]).length : ℝ) = (p.length : ℝ) + 1 := by
    simp
  rw [hlen]
  congr 1
  have hfs : (p ++ [c]).toFinset = insert c p.toFinset := by
    ext x
    simp [or_comm]
  rw [hfs]
  have hcnot : c ∉ p.toFinset := by simpa using hc
  rw [Finset.sum_insert hcnot]
  have hcc : (p ++ [c]).count c = 1 := by
    rw [List.count_append]
    simp [List.count_eq_zero_of_not_mem hc]
  rw [hcc]
  simp only [Nat.cast_one, logb_one, mul_zero, one_mul, zero_add]
  apply Finset.sum_congr rfl
  intro x hx
  have hxc : x ≠ c := by
    intro he
    exact hc (he ▸ List.mem_toFinset.mp hx)
  have : (p ++ [c]).count x = p.count x := by
    rw [List.count_append]
    simp [List.count_singleton', hxc]
  rw [this]

theorem char_eq_of_toNat_eq {a b : Char} (h : a.toNat = b.toNat) : a = b := by
  cases a; cases b
  simp only [Char.toNat] at h
  congr 1
  exact UInt32.ext h

theorem digit_enum (c : Char) (h : c.isDigit = true) :
    c = '0' ∨ c = '1' ∨ c = '2' ∨ c = '3' ∨ c = '4' ∨ c = '5' ∨ c = '6' ∨ c = '7' ∨
      c = '8' ∨ c = '9' := by
  simp only [Char.isDigit, Bool.and_eq_true, decide_eq_true_eq] at h
  obtain ⟨h1, h2⟩ := h
  have h1n : 48 ≤ c.toNat := h1
  have h2n : c.toNat ≤ 57 := h2
  set n := c.toNat with hs
  interval_cases n <;>
    first
      | exact Or.inl (char_eq_of_toNat_eq hs.symm)
      | exact Or.inr (Or.inl (char_eq_of_toNat_eq hs.symm))
      | exact Or.inr (Or.inr (Or.inl (char_eq_of_toNat_eq hs.symm)))
      | exact Or.inr (Or.inr (Or.inr (Or.inl (char_eq_of_toNat_eq hs.symm))))
      | exact Or.inr (Or.inr (Or.inr (Or.inr (Or.inl (char_eq_of_toNat_eq hs.symm)))))
      | exact Or.inr (Or.inr (Or.inr (Or.inr (Or.inr (Or.inl (char_eq_of_toNat_eq hs.symm))))))
      | exact Or.inr (Or.inr (Or.inr (Or.inr (Or.inr (Or.inr (Or.inl
          (char_eq_of_toNat_eq hs.symm)))))))
      | exact Or.inr (Or.inr (Or.inr (Or.inr (Or.inr (Or.inr (Or.inr (Or.inl
          (char_eq_of_toNat_eq hs.symm))))))))
      | exact Or.inr (Or.inr (Or.inr (Or.inr (Or.inr (Or.inr (Or.inr (Or.inr (Or.inl
          (char_eq_of_toNat_eq hs.symm)))))))))
      | exact Or.inr (Or.inr (Or.inr (Or.inr (Or.inr (Or.inr (Or.inr (Or.inr (Or.inr
          (char_eq_of_toNat_eq hs.symm)))))))))

theorem digit_val_le (c : Char) (h : c.isDigit = true) : c.toNat - 48 ≤ 9 := by
  simp only [Char.isDigit, Bool.and_eq_true, decide_eq_true_eq] at h
  obtain ⟨h1, h2⟩ := h
  have h1n : 48 ≤ c.toNat := h1
  have h2n : c.toNat ≤ 57 := h2
  omega

theorem getElem?_some_lt {s : List Char} {i : Nat} {c : Char} (h : s[i]? = some c) :
    i < s.length := by
  by_contra hn
  rw [List.getElem?_eq_none (by omega)] at h
  exact Option.noConfusion h

theorem digitAt_lt {s : List Char} {i : Nat} (h : digitAt s i = true) : i < s.length := by
  unfold digitAt at h
  cases hc : s[i]? with
  | none => rw [hc] at h; exact Bool.noConfusion h
  | some c => exact getElem?_some_lt hc

theorem matchAt_append (s : List Char) (i : Nat) (u v : List Char) :
    matchAt s i (u ++ v) = (matchAt s i u && matchAt s (i + u.length) v) := by
  induction u generalizing i with
  | nil => simp [matchAt]
  | cons c w ih =>
    simp only [List.cons_append, matchAt, List.append_eq, ih (i + 1), List.length_cons]
    rw [show i + 1 + w.length = i + (w.length + 1) from by omega, Bool.and_assoc]

theorem matchAt_token (s : List Char) (i : Nat) (w : List Char)
    (hd : ∀ c ∈ w, c.isDigit = true) (h : matchAt s i w = true) :
    numTokenAt s i w.length ∧ tokenVal s i w.length = strVal w := by
  induction w using List.reverseRecOn generalizing i with
  | nil =>
    refine ⟨fun j hj => ?_, rfl⟩
    simp at hj
  | append_singleton w c ih =>
    rw [matchAt_append, Bool.and_eq_true] at h
    obtain ⟨h1, h2⟩ := h
    have hdw : ∀ x ∈ w, x.isDigit = true := fun x hx => hd x (by simp [hx])
    have hdc : c.isDigit = true := hd c (by simp)
    obtain ⟨ht, hv⟩ := ih i hdw h1
    simp only [matchAt, Bool.and_eq_true, beq_iff_eq] at h2
    obtain ⟨hc, -⟩ := h2
    constructor
    · intro j hj
      simp only [List.length_append, List.length_singleton] at hj
      by_cases hjw : j < w.length
      · exact ht j hjw
      · have hje : j = w.length := by omega
        subst hje
        simp [digitAt, hc, hdc]
    · simp only [List.length_append, List.length_singleton, tokenVal, strVal,
        List.foldl_append, List.foldl_cons, List.foldl_nil]
      rw [show tokenVal s i w.length = strVal w from hv]
      simp [digitValAt, hc, strVal]

theorem token_exists (s : List Char) (i L : Nat) (ht : numTokenAt s i L) :
    ∃ w : List Char, w.length = L ∧ (∀ c ∈ w, c.isDigit = true) ∧ matchAt s i w = true ∧
      strVal w = tokenVal s i L := by
  induction L with
  | zero => exact ⟨[], rfl, by simp, rfl, rfl⟩
  | succ n ih =>
    obtain ⟨w, hwl, hwd, hwm, hwv⟩ := ih (fun j hj => ht j (by omega))
    have hdig : digitAt s (i + n) = true := ht n (by omega)
    unfold digitAt at hdig
    cases hc : s[i + n]? with
    | none => rw [hc] at hdig; exact Bool.noConfusion hdig
    | some c =>
      rw [hc] at hdig
      refine ⟨w ++ [c], by simp [hwl], ?_, ?_, ?_⟩
      · intro x hx
        rcases List.mem_append.mp hx with hx | hx
        · exact hwd x hx
        · simp only [List.mem_singleton] at hx
          exact hx ▸ hdig
      · rw [matchAt_append, hwl]
        simp [hwm, matchAt, hc]
      · simp only [strVal, List.foldl_append, List.foldl_cons, List.foldl_nil, tokenVal]
        rw [show w.foldl (fun a x => a * 10 + (x.toNat - 48)) 0 = strVal w from rfl, hwv]
        simp [digitValAt, hc]

theorem monthStrs_spec (w : List Char) (hw : w ∈ monthStrs) :
    (∀ c ∈ w, c.isDigit = true) ∧ (w.length = 1 ∨ w.length = 2) ∧
      1 ≤ strVal w ∧ strVal w ≤ 12 := by
  fin_cases hw <;> refine ⟨?_, ?_, ?_, ?_⟩ <;> decide

theorem dayStrs_spec (w : List Char) (hw : w ∈ dayStrs) :
    (∀ c ∈ w, c.isDigit = true) ∧ (w.length = 1 ∨ w.length = 2) ∧
      1 ≤ strVal w ∧ strVal w ≤ 31 := by
  fin_cases hw <;> refine ⟨?_, ?_, ?_, ?_⟩ <;> decide

theorem mem_monthStrs (w : List Char) (hd : ∀ c ∈ w, c.isDigit = true)
    (hl : w.length = 1 ∨ w.length = 2) (h1 : 1 ≤ strVal w) (h2 : strVal w ≤ 12) :
    w ∈ monthStrs := by
  rcases hl with hl | hl
  · obtain ⟨a, rfl⟩ := List.length_eq_one.mp hl
    have ha := hd a (by simp)
    rcases digit_enum a ha with rfl | rfl | rfl | rfl | rfl | rfl | rfl | rfl | rfl | rfl <;>
      revert h1 h2 <;> decide
  · match w, hl with
    | [a, b], _ =>
      have ha := hd a (by simp)
      have hb := hd b (by simp)
      rcases digit_enum a ha with rfl | rfl | rfl | rfl | rfl | rfl | rfl | rfl | rfl | rfl <;>
        rcases digit_enum b hb with rfl | rfl | rfl | rfl | rfl | rfl | rfl | rfl | rfl | rfl <;>
          revert h1 h2 <;> decide

theorem mem_dayStrs (w : List Char) (hd : ∀ c ∈ w, c.isDigit = true)
    (hl : w.length = 1 ∨ w.length = 2) (h1 : 1 ≤ strVal w) (h2 : strVal w ≤ 31) :
    w ∈ dayStrs := by
  rcases hl with hl | hl
  · obtain ⟨a, rfl⟩ := List.length_eq_one.mp hl
    have ha := hd a (by simp)
    rcases digit_enum a ha with rfl | rfl | rfl | rfl | rfl | rfl | rfl | rfl | rfl | rfl <;>
      revert h1 h2 <;> decide
  · match w, hl with
    | [a, b], _ =>
      have ha := hd a (by simp)
      have hb := hd b (by simp)
      rcases digit_enum a ha with rfl | rfl | rfl | rfl | rfl | rfl | rfl | rfl | rfl | rfl <;>
        rcases digit_enum b hb with rfl | rfl | rfl | rfl | rfl | rfl | rfl | rfl | rfl | rfl <;>
          revert h1 h2 <;> decide

theorem numTokenAt_pair {s : List Char} {i : Nat} (h0 : digitAt s i = true)
    (h1 : digitAt s (i + 1) = true) : numTokenAt s i 2 := by
  intro j hj
  interval_cases j
  · simpa using h0
  · exact h1

theorem yearTailAt_iff (s : List Char) (i : Nat) :
    yearTailAt s i = true ↔
      ∃ yL, (yL = 2 ∨ yL = 4) ∧ numTokenAt s i yL ∧ boundaryAt s (i + yL) = true := by
  unfold yearTailAt
  rw [Bool.or_eq_true]
  constructor
  · rintro (h | h) <;> simp only [Bool.and_eq_true] at h
    · obtain ⟨⟨h0, h1⟩, hb⟩ := h
      exact ⟨2, Or.inl rfl, numTokenAt_pair h0 h1, hb⟩
    · obtain ⟨⟨⟨⟨h0, h1⟩, h2⟩, h3⟩, hb⟩ := h
      refine ⟨4, Or.inr rfl, ?_, hb⟩
      intro j hj
      interval_cases j
      · simpa using h0
      · exact h1
      · exact h2
      · exact h3
  · rintro ⟨yL, hyL, ht, hb⟩
    rcases hyL with rfl | rfl
    · refine Or.inl ?_
      simp only [Bool.and_eq_true]
      exact ⟨⟨by simpa using ht 0 (by omega), ht 1 (by omega)⟩, hb⟩
    · refine Or.inr ?_
      simp only [Bool.and_eq_true]
      exact ⟨⟨⟨⟨by simpa using ht 0 (by omega), ht 1 (by omega)⟩, ht 2 (by omega)⟩,
        ht 3 (by omega)⟩, hb⟩

theorem digitAt_val_le {s : List Char} {i : Nat} (h : digitAt s i = true) :
    digitValAt s i ≤ 9 := by
  unfold digitAt at h
  cases hc : s[i]? with
  | none => rw [hc] at h; exact Bool.noConfusion h
  | some c =>
    rw [hc] at h
    simp only [digitValAt, hc]
    exact digit_val_le c h

theorem tokenVal_four (s : List Char) (i : Nat) :
    tokenVal s i 4 = tokenVal s i 2 * 100 + digitValAt s (i + 2) * 10 + digitValAt s (i + 3) := by
  simp only [tokenVal]
  ring

theorem yearAt_iff (s : List Char) (i : Nat) :
    yearAt s i = true ↔
      boundaryAt s i = true ∧ numTokenAt s i 4 ∧ 1900 ≤ tokenVal s i 4 ∧
        tokenVal s i 4 ≤ 2099 ∧ boundaryAt s (i + 4) = true := by
  constructor
  · intro h
    unfold yearAt at h
    simp only [Bool.and_eq_true, Bool.or_eq_true] at h
    obtain ⟨⟨⟨⟨hb, hor⟩, h2⟩, h3⟩, hb4⟩ := h
    have hv2le : digitValAt s (i + 2) ≤ 9 := digitAt_val_le h2
    have hv3le : digitValAt s (i + 3) ≤ 9 := digitAt_val_le h3
    have hfour := tokenVal_four s i
    rcases hor with hm | hm
    · obtain ⟨ht2, hv2⟩ := matchAt_token s i ['1', '9'] (by decide) hm
      have hv2' : tokenVal s i 2 = 19 := by rw [show (2 : ℕ) = (['1', '9'] : List Char).length from rfl, hv2]; decide
      refine ⟨hb, ?_, by omega, by omega, hb4⟩
      intro j hj
      by_cases hj2 : j < 2
      · exact ht2 j (by simpa using hj2)
      · have : j = 2 ∨ j = 3 := by omega
        rcases this with rfl | rfl
        · exact h2
        · exact h3
    · obtain ⟨ht2, hv2⟩ := matchAt_token s i ['2', '0'] (by decide) hm
      have hv2' : tokenVal s i 2 = 20 := by rw [show (2 : ℕ) = (['2', '0'] : List Char).length from rfl, hv2]; decide
      refine ⟨hb, ?_, by omega, by omega, hb4⟩
      intro j hj
      by_cases hj2 : j < 2
      · exact ht2 j (by simpa using hj2)
      · have : j = 2 ∨ j = 3 := by omega
        rcases this with rfl | rfl
        · exact h2
        · exact h3
  · rintro ⟨hb, ht, h1, h2, hb4⟩
    obtain ⟨w, hwl, hwd, hwm, hwv⟩ := token_exists s i 4 ht
    match w, hwl, hwd, hwm, hwv with
    | [a, b, c, d], _, hwd, hwm, hwv =>
      have ha := hwd a (by simp)
      have hbd := hwd b (by simp)
      have hcd := hwd c (by simp)
      have hdd := hwd d (by simp)
      have hva := digit_val_le a ha
      have hvb := digit_val_le b hbd
      have hvc := digit_val_le c hcd
      have hvd := digit_val_le d hdd
      simp only [strVal, List.foldl_cons, List.foldl_nil] at hwv
      simp only [matchAt, Bool.and_eq_true, beq_iff_eq, and_true] at hwm
      obtain ⟨hma, hmb, hmc, hmd⟩ := hwm
      unfold yearAt
      simp only [Bool.and_eq_true, Bool.or_eq_true]
      have hab : (a.toNat - 48 = 1 ∧ b.toNat - 48 = 9) ∨
          (a.toNat - 48 = 2 ∧ b.toNat - 48 = 0) := by omega
      refine ⟨⟨⟨⟨hb, ?_⟩, ht 2 (by omega)⟩, ht 3 (by omega)⟩, hb4⟩
      rcases hab with ⟨ha1, hb1⟩ | ⟨ha1, hb1⟩
      · have haa : a = '1' := by
          rcases digit_enum a ha with rfl | rfl | rfl | rfl | rfl | rfl | rfl | rfl | rfl | rfl <;>
            first
              | rfl
              | (exfalso; revert ha1; decide)
        have hbb : b = '9' := by
          rcases digit_enum b hbd with rfl | rfl | rfl | rfl | rfl | rfl | rfl | rfl | rfl | rfl <;>
            first
              | rfl
              | (exfalso; revert hb1; decide)
        subst haa
        subst hbb
        left
        simp [matchAt, hma, hmb]
      · have haa : a = '2' := by
          rcases digit_enum a ha with rfl | rfl | rfl | rfl | rfl | rfl | rfl | rfl | rfl | rfl <;>
            first
              | rfl
              | (exfalso; revert ha1; decide)
        have hbb : b = '0' := by
          rcases digit_enum b hbd with rfl | rfl | rfl | rfl | rfl | rfl | rfl | rfl | rfl | rfl <;>
            first
              | rfl
              | (exfalso; revert hb1; decide)
        subst haa
        subst hbb
        right
        simp [matchAt, hma, hmb]

theorem mdyAt_iff (s : List Char) (i : Nat) :
    mdyAt s i = true ↔
      ∃ mL dL yL, (mL = 1 ∨ mL = 2) ∧ (dL = 1 ∨ dL = 2) ∧ (yL = 2 ∨ yL = 4) ∧
        boundaryAt s i = true ∧
        numTokenAt s i mL ∧ 1 ≤ tokenVal s i mL ∧ tokenVal s i mL ≤ 12 ∧
        sepAt s (i + mL) = true ∧
        numTokenAt s (i + mL + 1) dL ∧ 1 ≤ tokenVal s (i + mL + 1) dL ∧
        tokenVal s (i + mL + 1) dL ≤ 31 ∧
        sepAt s (i + mL + 1 + dL) = true ∧
        numTokenAt s (i + mL + dL + 2) yL ∧
        boundaryAt s (i + mL + dL + 2 + yL) = true := by
  unfold mdyAt
  rw [Bool.and_eq_true, List.any_eq_true]
  constructor
  · rintro ⟨hb, m, hmem, hrest⟩
    simp only [Bool.and_eq_true] at hrest
    obtain ⟨⟨hmatch, hsep⟩, hday⟩ := hrest
    rw [List.any_eq_true] at hday
    obtain ⟨d, hdmem, hdrest⟩ := hday
    simp only [Bool.and_eq_true] at hdrest
    obtain ⟨⟨hdmatch, hdsep⟩, hytail⟩ := hdrest
    obtain ⟨hmd, hml, hm1, hm2⟩ := monthStrs_spec m hmem
    obtain ⟨hmt, hmv⟩ := matchAt_token s i m hmd hmatch
    obtain ⟨hdd, hdl, hd1, hd2⟩ := dayStrs_spec d hdmem
    obtain ⟨hdt, hdv⟩ := matchAt_token s (i + m.length + 1) d hdd hdmatch
    obtain ⟨yL, hyL, hyt, hyb⟩ := (yearTailAt_iff s (i + m.length + d.length + 2)).mp hytail
    exact ⟨m.length, d.length, yL, hml, hdl, hyL, hb, hmt, hmv ▸ hm1, hmv ▸ hm2, hsep,
      hdt, hdv ▸ hd1, hdv ▸ hd2, hdsep, hyt, hyb⟩
  · rintro ⟨mL, dL, yL, hml, hdl, hyL, hb, hmt, hm1, hm2, hsep, hdt, hd1, hd2, hdsep, hyt, hyb⟩
    refine ⟨hb, ?_⟩
    obtain ⟨wm, hwml, hwmd, hwmm, hwmv⟩ := token_exists s i mL hmt
    obtain ⟨wd, hwdl, hwdd, hwdm, hwdv⟩ := token_exists s (i + mL + 1) dL hdt
    refine ⟨wm, mem_monthStrs wm hwmd (hwml ▸ hml) (hwmv ▸ hm1) (hwmv ▸ hm2), ?_⟩
    simp only [Bool.and_eq_true]
    refine ⟨⟨hwmm, by rw [hwml]; exact hsep⟩, ?_⟩
    rw [List.any_eq_true]
    refine ⟨wd, mem_dayStrs wd hwdd (hwdl ▸ hdl) (hwdv ▸ hd1) (hwdv ▸ hd2), ?_⟩
    simp only [Bool.and_eq_true]
    refine ⟨⟨by rw [hwml]; exact hwdm, by rw [hwml, hwdl]; exact hdsep⟩, ?_⟩
    rw [hwml, hwdl]
    exact (yearTailAt_iff s (i + mL + dL + 2)).mpr ⟨yL, hyL, hyt, hyb⟩

theorem dateTest_iff (s : List Char) :
    dateTest s = true ↔ specYearWord s ∨ specMDY s := by
  unfold dateTest
  rw [List.any_eq_true]
  constructor
  · rintro ⟨i, hmem, hor⟩
    rcases (by simpa using hor : yearAt s i = true ∨ mdyAt s i = true) with h | h
    · exact Or.inl ⟨i, (yearAt_iff s i).mp h⟩
    · exact Or.inr ⟨i, (mdyAt_iff s i).mp h⟩
  · rintro (⟨i, hbody⟩ | ⟨i, hbody⟩)
    · have hlt : i < s.length := by
        have hd0 : digitAt s (i + 0) = true := hbody.2.1 0 (by omega)
        have := digitAt_lt hd0
        omega
      have hy := (yearAt_iff s i).mpr hbody
      exact ⟨i, List.mem_range.mpr (by omega), by simp [hy]⟩
    · have hlt : i < s.length := by
        obtain ⟨mL, dL, yL, hml, hdl, hyL, hb, hmt, hrest⟩ := hbody
        have hd0 : digitAt s (i + 0) = true := hmt 0 (by omega)
        have := digitAt_lt hd0
        omega
      have hy := (mdyAt_iff s i).mpr hbody
      exact ⟨i, List.mem_range.mpr (by omega), by simp [hy]⟩

/-!
Claim theorems.
-/

/-- C1: for every non-empty password, the strength score lies in [0, 1], the displayed
integer score equals round(score * 100), and the displayed score lies in [0, 100]. -/
theorem analysis_score_bounds (p : List Char) (h : p ≠ []) :
    0 ≤ (performAnalysis p).strength.score ∧ (performAnalysis p).strength.score ≤ 1 ∧
    (performAnalysis p).score = round ((performAnalysis p).strength.score * 100) ∧
    0 ≤ (performAnalysis p).score ∧ (performAnalysis p).score ≤ 100 := by
  have key : 0 ≤ (calculateStrength p (calculateEntropy p) (detectPatterns p)).score ∧
      (calculateStrength p (calculateEntropy p) (detectPatterns p)).score ≤ 1 := by
    simp only [calculateStrength]
    set e := calculateEntropy p with he
    have hA : min ((p.length : ℝ) / 20) 1 * 0.25 ≤ 0.25 := by
      have := min_le_right ((p.length : ℝ) / 20) 1
      nlinarith
    have hB : min (e.shannon / 50) 1 * 0.30 ≤ 0.30 := by
      have := min_le_right (e.shannon / 50) 1
      nlinarith
    have hC : (e.charset : ℝ) / 94 * 0.15 ≤ 0.15 := by
      have h94 : (e.charset : ℝ) ≤ 94 := by
        have := charsetSize_le p
        simp only [he, calculateEntropy]
        exact_mod_cast this
      nlinarith
    have hD : e.uniqueness / 100 * 0.10 ≤ 0.10 := by
      have h100 : e.uniqueness ≤ 100 := by
        simp only [he, calculateEntropy]
        exact uniqueness_le p h
      nlinarith
    have hE : min (e.nist / 60) 1 * 0.10 ≤ 0.10 := by
      have := min_le_right (e.nist / 60) 1
      nlinarith
    have hpen : (0 : ℝ) ≤ (patternCount (detectPatterns p) : ℝ) * 0.08 := by positivity
    have hmax0 : (0 : ℝ) ≤ max 0 (0 + min ((p.length : ℝ) / 20) 1 * 0.25 +
        min (e.shannon / 50) 1 * 0.30 + (e.charset : ℝ) / 94 * 0.15 +
        e.uniqueness / 100 * 0.10 + min (e.nist / 60) 1 * 0.10 + 0.10 -
        (patternCount (detectPatterns p) : ℝ) * 0.08) := le_max_left _ _
    have hmax1 : max 0 (0 + min ((p.length : ℝ) / 20) 1 * 0.25 +
        min (e.shannon / 50) 1 * 0.30 + (e.charset : ℝ) / 94 * 0.15 +
        e.uniqueness / 100 * 0.10 + min (e.nist / 60) 1 * 0.10 + 0.10 -
        (patternCount (detectPatterns p) : ℝ) * 0.08) ≤ 1 := by
      apply max_le (by norm_num)
      linarith
    split <;> constructor <;> nlinarith
  obtain ⟨h0, h1⟩ := key
  have hdisp : (performAnalysis p).score =
      round ((performAnalysis p).strength.score * 100) := rfl
  have hps : (performAnalysis p).strength.score =
      (calculateStrength p (calculateEntropy p) (detectPatterns p)).score := rfl
  refine ⟨?_, ?_, hdisp, ?_, ?_⟩
  · rw [hps]; exact h0
  · rw [hps]; exact h1
  · rw [hdisp, round_eq, hps, Int.le_floor]
    push_cast
    nlinarith
  · rw [hdisp, round_eq, hps]
    have hle : (calculateStrength p (calculateEntropy p) (detectPatterns p)).score * 100 + 1 / 2 ≤
        (100.5 : ℝ) := by nlinarith
    have hfl := Int.floor_le_floor hle
    have h100 : ⌊(100.5 : ℝ)⌋ = 100 := by norm_num [Int.floor_eq_iff]
    omega

/-- Witness for C1 at the password "a". -/
theorem analysis_score_bounds_witness :
    (('a' :: []) ≠ ([] : List Char)) ∧
    (0 ≤ (performAnalysis ['a']).strength.score ∧ (performAnalysis ['a']).strength.score ≤ 1 ∧
      (performAnalysis ['a']).score = round ((performAnalysis ['a']).strength.score * 100) ∧
      0 ≤ (performAnalysis ['a']).score ∧ (performAnalysis ['a']).score ≤ 100) :=
  ⟨by decide, analysis_score_bounds ['a'] (by decide)⟩

/-- C2: for every password, the engine's strength score equals the spec's closed formula:
the six-term weighted subtotal, then `max(0, S - count*0.08)`, then the `* 0.3` dictionary
multiplier. -/
theorem strength_formula_spec (p : List Char) :
    (performAnalysis p).strength.score = specFinalScore p := by
  have hps : (performAnalysis p).strength.score =
      (calculateStrength p (calculateEntropy p) (detectPatterns p)).score := rfl
  rw [hps]
  simp only [calculateStrength, specFinalScore, specSubtotal]
  split <;> ring_nf

/-- C3 counterexample: the engine does not guard the empty string; `calculateUniqueness`
divides 0 by 0 there, which in JS float semantics is NaN (modelled as `none`), rather than
raising an error. -/
theorem engine_empty_nan : calculateUniquenessJS [] = none := rfl

/-- C3 amended: `analyze` rejects the empty password with `InvalidInputError` at the entry
guard, before the engine runs; the engine itself does not guard: on the empty string the
uniqueness metric is NaN (`none`) while the Shannon entropy evaluates to 0; on a non-empty
password `analyze` returns the engine's report. -/
theorem analyze_empty_guard :
    analyze [] = Except.error InvalidInputError.emptyInput ∧
    calculateUniquenessJS [] = none ∧ calculateShannonEntropy [] = 0 ∧
    analyze ('a' :: []) = Except.ok (performAnalysis ['a']) := by
  refine ⟨rfl, rfl, ?_, rfl⟩
  simp [calculateShannonEntropy]

/-- C4 counterexample: "31/12/99" is a day/month/year date (day 31, month 12, year 99) with
slash separators, yet the date flag is false on it, refuting the claimed equivalence with
day/month/year order. -/
theorem date_dmy_counterexample :
    ¬ ((detectPatterns "31/12/99".toList).date = true ↔
        specYearWord "31/12/99".toList ∨ specDMY "31/12/99".toList) := by
  intro h
  have hd : specDMY "31/12/99".toList := ⟨0, 2, 2, 2, by decide⟩
  have := h.mpr (Or.inr hd)
  exact absurd this (by decide)

/-- C4 amended: the date flag is true iff the password contains a word-bounded four-digit
year in 1900..2099, or a word-bounded month/day/year numeric date (month 1..12 first,
day 1..31 second, then a two- or four-digit year) with `/` or `-` separators. -/
theorem date_flag_spec (s : List Char) :
    (detectPatterns s).date = true ↔ specYearWord s ∨ specMDY s :=
  dateTest_iff s

/-- C5 counterexample: on "admin" (dictionary and personal flags true) the list has 5
entries while the claim predicts base advices plus one advice per true flag, 6 — the leet
and personal flags produce no advice; and on "qwertyyy" the repeated-characters advice
precedes the keyboard advice, refuting the claimed keyboard-first order. -/
theorem recommendations_counterexample :
    ¬ ((generateRecommendations "admin".toList (detectPatterns "admin".toList)
          ⟨0, Level.VeryWeak, "x"⟩).length =
        claimBaseAdviceCount "admin".toList + patternCount (detectPatterns "admin".toList)) ∧
    generateRecommendations "qwertyyy".toList (detectPatterns "qwertyyy".toList)
        ⟨0, Level.VeryWeak, "x"⟩ =
      [ "Increase password length to at least 12 characters", "Add uppercase letters",
        "Add numbers", "Add special characters (!@#$%^&*)", "Avoid repeated characters",
        "Avoid keyboard patterns" ] := ⟨by decide, by decide⟩

/-- C5 amended: the recommendation list is exactly the advice of the triggered rules in
the source's fixed order — length < 12, missing lowercase, uppercase, digits, symbols,
then the repeated, sequential, keyboard, dictionary and date flags (leet and personal
trigger no advice) — with a single "excellent" message when no rule triggered. -/
theorem recommendations_spec (p : List Char) (f : PatternFlags) (st : StrengthResult) :
    generateRecommendations p f st = specRecs p f := by
  simp only [generateRecommendations, specRecs, specRecRules, filterMap_rule_cons,
    List.filterMap_nil, List.append_nil, List.nil_append, List.append_assoc,
    List.length_eq_zero, decide_eq_true_eq]

/-- C6: the crack-time estimator divides `2 ^ (shannon / 2)` guesses by the throughputs
1e3, 1e6 and 1e9, and `formatTime` renders 0.5 s as "Instant", 45 s as "45 seconds" and
90 s as "2 minutes" (unit thresholds with rounding). -/
theorem crack_time_spec :
    (∀ p : List Char, (performAnalysis p).crackTimes =
      { online := formatTime ((2 : ℝ) ^ ((calculateEntropy p).shannon / 2) / 1000)
        offline_cpu := formatTime ((2 : ℝ) ^ ((calculateEntropy p).shannon / 2) / 1000000)
        offline_gpu :=
          formatTime ((2 : ℝ) ^ ((calculateEntropy p).shannon / 2) / 1000000000) }) ∧
    formatTime 0.5 = "Instant" ∧ formatTime 45 = "45 seconds" ∧
    formatTime 90 = "2 minutes" := by
  refine ⟨fun p => rfl, ?_, ?_, ?_⟩
  · rw [formatTime, if_pos (by norm_num)]
  · rw [formatTime, if_neg (by norm_num), if_pos (by norm_num)]
    norm_num [round_eq]
    rfl
  · rw [formatTime, if_neg (by norm_num), if_neg (by norm_num), if_pos (by norm_num)]
    norm_num [round_eq]
    rfl

/-- C7: the analysis is deterministic — the engine is a pure function of the password, so
identical inputs produce identical reports. -/
theorem analysis_deterministic (p : List Char) :
    performAnalysis p = performAnalysis p ∧ analyze p = analyze p := ⟨rfl, rfl⟩

/-- C8: appending a character that does not occur in a non-empty password never decreases
the (length-scaled) Shannon entropy. -/
theorem shannon_monotone_append (p : List Char) (c : Char) (h : p ≠ []) (hc : c ∉ p) :
    calculateShannonEntropy p ≤ calculateShannonEntropy (p ++ [c]) := by
  rw [shannon_closed p h, shannon_snoc p c hc]
  have h1 : (1 : ℝ) ≤ (p.length : ℝ) := by
    have : 0 < p.length := List.length_pos.mpr h
    exact_mod_cast this
  have hx : (p.length : ℝ) * logb 2 (p.length : ℝ) ≤
      ((p.length : ℝ) + 1) * logb 2 ((p.length : ℝ) + 1) := by
    have hl0 : 0 ≤ logb 2 (p.length : ℝ) := logb_nonneg one_lt_two h1
    have hmono : logb 2 (p.length : ℝ) ≤ logb 2 ((p.length : ℝ) + 1) :=
      logb_le_logb_of_le one_lt_two (by linarith) (by linarith)
    nlinarith
  linarith

/-- Witness for C8 at the password "ab" and the fresh character 'c'. -/
theorem shannon_monotone_append_witness :
    ((['a', 'b'] : List Char) ≠ [] ∧ 'c' ∉ (['a', 'b'] : List Char)) ∧
    calculateShannonEntropy ['a', 'b'] ≤ calculateShannonEntropy (['a', 'b'] ++ ['c']) :=
  ⟨⟨by decide, by decide⟩, shannon_monotone_append ['a', 'b'] 'c' (by decide) (by decide)⟩

/-- C9: for a single-character password the degenerate metrics are well defined:
uniqueness is exactly 100 (also under the JS float semantics) and the Shannon entropy is
exactly 0. -/
theorem single_char_metrics (c : Char) :
    calculateUniqueness [c] = 100 ∧ calculateShannonEntropy [c] = 0 ∧
    calculateUniquenessJS [c] = some 100 := by
  have hd : ([c] : List Char).dedup = [c] := by simp
  refine ⟨?_, ?_, ?_⟩
  · simp [calculateUniqueness, hd]
  · simp [calculateShannonEntropy, hd]
  · simp [calculateUniquenessJS, calculateUniqueness, hd]

/-- C10: for every non-empty password the charset size lies in [10, 94], the NIST entropy
equals `length * log2(charset)`, and it is strictly positive. -/
theorem charset_nist_invariant (p : List Char) (h : p ≠ []) :
    10 ≤ charsetSize p ∧ charsetSize p ≤ 94 ∧
    (calculateEntropy p).nist = p.length * logb 2 (charsetSize p) ∧
    0 < (calculateEntropy p).nist := by
  have h10 := le_charsetSize p h
  have h94 := charsetSize_le p
  have hcast : (1 : ℝ) < (charsetSize p : ℝ) := by
    have : (10 : ℝ) ≤ (charsetSize p : ℝ) := by exact_mod_cast h10
    linarith
  have hlen : 0 < p.length := List.length_pos.mpr h
  refine ⟨h10, h94, ?_, ?_⟩
  · simp only [calculateEntropy]
    exact logb_pow 2 _ p.length
  · simp only [calculateEntropy]
    rw [logb_pow 2 _ p.length]
    have hpos : 0 < logb 2 (charsetSize p : ℝ) := logb_pos one_lt_two hcast
    have : (0 : ℝ) < (p.length : ℝ) := by exact_mod_cast hlen
    positivity

/-- Witness for C10 at the password "a". -/
theorem charset_nist_invariant_witness :
    (('a' :: []) ≠ ([] : List Char)) ∧
    (10 ≤ charsetSize ['a'] ∧ charsetSize ['a'] ≤ 94 ∧
      (calculateEntropy ['a']).nist = (['a'] : List Char).length * logb 2 (charsetSize ['a']) ∧
      0 < (calculateEntropy ['a']).nist) :=
  ⟨by decide, charset_nist_invariant ['a'] (by decide)⟩
